import Mathlib

/-!
# Verification of the arrayvec fixed-capacity containers

Shallow embedding of the `arrayvec` crate's fixed-capacity vector and string.
A vector value is modelled by its capacity together with the list of live
elements (the live prefix `[0, length)` of the backing buffer); the dead
slots beyond `length` carry no observable value, so they are not represented.

The repository contains two design lines:
* the historical line (`src/raw.rs`, `src/lib.rs`, `src/vec.rs`): `push` and
  `insert` return the rejected/evicted element, `Extend` silently stops at
  capacity, `Drop` pops elements one by one from the end;
* the modern line (`src/arrayvec_impl.rs`, `src/arrayvec_copy.rs`,
  `src/array_string.rs`): `push`/`insert` panic and `try_push`/`try_insert`
  return a typed `CapacityError`, extend-from-iterator panics on overflow,
  dropping truncates (dropping the tail front to back).
Both lines are embedded below; each definition names the source it follows.

Panics are modelled with `Option`/`Except`: `none`/`Except.error` marks the
panicking outcome (carrying the post-panic state where it matters).
-/

/-- `src/errors.rs`: error value indicating insufficient capacity, carrying
the rejected element. -/
structure CapacityError (α : Type u) where
  element : α
  deriving DecidableEq, Repr

/-- Model of `RawArrayVec<A>` (`src/raw.rs`) and of the modern arrayvec
(`src/arrayvec_impl.rs` / `src/arrayvec_copy.rs`): a capacity and the list of
live elements.  Invariant (proved, not assumed): `data.length ≤ cap`. -/
structure ArrayVec (α : Type u) where
  cap : Nat
  data : List α
  deriving DecidableEq, Repr

namespace ArrayVec

/-- `RawArrayVec::new` / `ArrayVec::new`: empty vector of the given capacity. -/
def new (α : Type u) (cap : Nat) : ArrayVec α := ⟨cap, []⟩

/-- `impl From<A> for RawArrayVec<A>` / `From<[T; CAP]>`: a fully
initialized source array gives a full vector (`len = capacity`). -/
def fromArray (xs : List α) : ArrayVec α := ⟨xs.length, xs⟩

/-- `RawArrayVec::len`. -/
def len (v : ArrayVec α) : Nat := v.data.length

/-- `RawArrayVec::is_full`: `self.len() == self.capacity()`. -/
def is_full (v : ArrayVec α) : Bool := v.len == v.cap

/-- `remaining_capacity` (`src/arrayvec_copy.rs`): `capacity() - len()`. -/
def remaining_capacity (v : ArrayVec α) : Nat := v.cap - v.len

/-- `ArrayVecImpl::try_push` (`src/arrayvec_impl.rs`, same body as
`RawArrayVec::push` in `src/raw.rs`): if `len < CAPACITY`, write the element
into slot `len` and set the length to `len + 1`; otherwise return a
`CapacityError` carrying the element, leaving the vector untouched. -/
def try_push (v : ArrayVec α) (x : α) : Except (CapacityError α) Unit × ArrayVec α :=
  if v.data.length < v.cap then
    (Except.ok (), ⟨v.cap, v.data ++ [x]⟩)
  else
    (Except.error ⟨x⟩, v)

/-- `ArrayVecImpl::push`: `self.try_push(element).unwrap()`.  `none` is the
panicking outcome. -/
def push (v : ArrayVec α) (x : α) : Option (ArrayVec α) :=
  match v.try_push x with
  | (Except.ok _, v₂) => some v₂
  | (Except.error _, _) => none

/-- `RawArrayVec::pop` / `ArrayVecImpl::pop`: `None` if empty; otherwise
decrement the length first, then read out the element at the old last index. -/
def pop (v : ArrayVec α) : Option α × ArrayVec α :=
  if v.data.length = 0 then
    (none, v)
  else
    (v.data.getLast?, ⟨v.cap, v.data.dropLast⟩)

/-- `RawArrayVec::insert` (`src/raw.rs`): asserts `index <= len` (`none` is
the panicking outcome).  If `index == capacity`, the input element is
rejected with no mutation.  Otherwise, if the vector is full, the last
element is popped and returned inside the error; in every non-early-return
case the element is then spliced in at `index`, shifting `[index, len)` one
slot to the right. -/
def insert (v : ArrayVec α) (index : Nat) (x : α) :
    Option (Except (CapacityError α) Unit × ArrayVec α) :=
  if index ≤ v.data.length then
    if index = v.cap then
      some (Except.error ⟨x⟩, v)
    else if v.data.length = v.cap then
      match v.pop with
      | (some last, v₁) =>
          some (Except.error ⟨last⟩, ⟨v₁.cap, v₁.data.take index ++ x :: v₁.data.drop index⟩)
      | (none, _) => none
    else
      some (Except.ok (), ⟨v.cap, v.data.take index ++ x :: v.data.drop index⟩)
  else
    none

/-- `ArrayVecCopy::try_insert` (`src/arrayvec_copy.rs`): panics (`none`) if
`index > len`; errors with the input element, without mutating, if the
vector is full; otherwise splices the element in at `index`. -/
def try_insert (v : ArrayVec α) (index : Nat) (x : α) :
    Option (Except (CapacityError α) Unit × ArrayVec α) :=
  if index > v.data.length then
    none
  else if v.data.length = v.cap then
    some (Except.error ⟨x⟩, v)
  else
    some (Except.ok (), ⟨v.cap, v.data.take index ++ x :: v.data.drop index⟩)

/-- `<[T]>::swap(i, j)` on the live slice, as used by `swap_remove`. -/
def swapList (l : List α) (i j : Nat) : List α :=
  match l[i]?, l[j]? with
  | some a, some b => (l.set i b).set j a
  | _, _ => l

/-- `RawArrayVec::swap_remove` (`src/raw.rs`): `None` (vector untouched) if
`index >= len`; otherwise swap the target with the last live element and pop. -/
def swap_remove (v : ArrayVec α) (index : Nat) : Option α × ArrayVec α :=
  if index ≥ v.data.length then
    (none, v)
  else
    ArrayVec.pop ⟨v.cap, swapList v.data index (v.data.length - 1)⟩

/-- State of a `Drain` iterator (`src/raw.rs`): the not-yet-yielded slice of
the drained range, and the contents the backing buffer holds at
`[tail_start, tail_start + tail_len)` (the preserved tail `[end, len)`,
untouched while the iterator lives). -/
structure Drain (α : Type u) where
  remaining : List α
  tail : List α
  deriving DecidableEq, Repr

/-- `RawArrayVec::drain` (`src/raw.rs`): bounds-checked (`none` is the
panicking outcome of slicing `&self[start..end]`); on success the owner's
length is immediately shortened to `start` and the iterator takes over the
range `[start, end)` plus the bookkeeping for the tail `[end, len)`. -/
def drain (v : ArrayVec α) (start stop : Nat) : Option (Drain α × ArrayVec α) :=
  if start ≤ stop ∧ stop ≤ v.data.length then
    some (⟨(v.data.take stop).drop start, v.data.drop stop⟩, ⟨v.cap, v.data.take start⟩)
  else
    none

/-- `Iterator::next` for `Drain`: read the next element out of the range. -/
def drainNext (d : Drain α) : Option α × Drain α :=
  (d.remaining.head?, ⟨d.remaining.tail, d.tail⟩)

/-- `next` iterated `k` times, collecting the yielded elements. -/
def drainConsume (d : Drain α) : Nat → List α × Drain α
  | 0 => ([], d)
  | k + 1 =>
    match drainNext d with
    | (some a, d₁) =>
        let r := drainConsume d₁ k
        (a :: r.1, r.2)
    | (none, d₁) => ([], d₁)

/-- `Drop for Drain` (`src/raw.rs`): exhaust the iterator (dropping the
unread elements of the range), then move the preserved tail down to the
owner's current end and restore the length to `start + tail_len`. -/
def drainDrop (d : Drain α) (v : ArrayVec α) : ArrayVec α :=
  ⟨v.cap, v.data ++ d.tail⟩

/-- `RawArrayVec::remove` (`src/raw.rs`): `None` (vector untouched) if
`index >= len`; otherwise `self.drain(index..index + 1).next()`, the `Drain`
temporary being dropped at the end of the statement. -/
def remove (v : ArrayVec α) (index : Nat) : Option α × ArrayVec α :=
  if index ≥ v.data.length then
    (none, v)
  else
    match v.drain index (index + 1) with
    | some (d, v₁) =>
        match drainNext d with
        | (e, d₁) => (e, drainDrop d₁ v₁)
    | none => (none, v)

/-- `ArrayVecImpl::truncate` (`src/arrayvec_impl.rs`): no-op unless
`new_len < len`; otherwise set the length and drop the tail in place. -/
def truncate (v : ArrayVec α) (new_len : Nat) : ArrayVec α :=
  if new_len < v.data.length then ⟨v.cap, v.data.take new_len⟩ else v

/-- The sequence of elements `ArrayVecImpl::truncate` drops:
`ptr::drop_in_place` on the tail slice drops `[new_len, len)` front to back
(index order); empty when `new_len ≥ len`. -/
def truncateDropTrace (v : ArrayVec α) (new_len : Nat) : List α :=
  v.data.drop new_len

/-- `ArrayVecImpl::clear`: `self.truncate(0)`  (the historical
`RawArrayVec::clear` pop-loop reaches the same state). -/
def clear (v : ArrayVec α) : ArrayVec α :=
  v.truncate 0

/-- The `while let Some(_) = self.pop() {}` loop of `Drop for ArrayVec`
(`src/lib.rs`): each iteration pops (and drops) the current last element.
The fuel starts at the live length, which bounds the number of iterations. -/
def popLoop : Nat → ArrayVec α → List α
  | 0, _ => []
  | fuel + 1, v =>
    match v.pop with
    | (none, _) => []
    | (some e, v₁) => e :: popLoop fuel v₁

/-- The sequence of element drops performed by `Drop for ArrayVec`
(`src/lib.rs`, lines 51–56), in the order they happen. -/
def dropTrace (v : ArrayVec α) : List α :=
  popLoop v.data.length v

/-- The `for i in 0..len` compaction loop of `RawArrayVec::retain`
(`src/raw.rs`): elements failing the predicate are counted in `del`, kept
elements are swapped `del` slots to the left. -/
def retainLoop (f : α → Bool) (l : List α) (i del : Nat) : List α × Nat :=
  if h : i < l.length then
    if ! f (l.get ⟨i, h⟩) then
      retainLoop f l (i + 1) (del + 1)
    else if del > 0 then
      retainLoop f (swapList l (i - del) i) (i + 1) del
    else
      retainLoop f l (i + 1) del
  else
    (l, del)
termination_by l.length - i
decreasing_by
  · omega
  · have hsw : (swapList l (i - del) i).length = l.length := by
      unfold swapList
      split <;> simp
    rw [hsw]
    omega
  · omega

/-- `RawArrayVec::retain` (`src/raw.rs`): run the compaction loop, then
drain the last `del` slots (the `Drain` temporary is dropped immediately). -/
def retain (v : ArrayVec α) (f : α → Bool) : ArrayVec α :=
  let r := retainLoop f v.data 0 0
  if r.2 > 0 then
    match ArrayVec.drain ⟨v.cap, r.1⟩ (r.1.length - r.2) r.1.length with
    | some (d, v₁) => drainDrop d v₁
    | none => ⟨v.cap, r.1⟩
  else
    ⟨v.cap, r.1⟩

/-- `impl Extend for RawArrayVec` (`src/raw.rs`, same as `src/lib.rs`):
`for elt in iter.into_iter().take(capacity - len) { let _ = self.push(elt); }`
— extra elements are silently discarded, push results ignored. -/
def extendSilent (v : ArrayVec α) (xs : List α) : ArrayVec α :=
  (xs.take (v.cap - v.data.length)).foldl (fun acc x => (acc.try_push x).2) v

/-- The write loop of `ArrayVecImpl::extend_from_iter::<_, CHECK = true>`
(`src/arrayvec_impl.rs`): writes elements into the free room one by one;
when an element arrives and the room is exhausted (`ptr == end_ptr`), it
panics — the scope-exit guard has already committed the elements written so
far, so the panic state (`Except.error`) carries them. -/
def extendCheckedGo (cap : Nat) (data : List α) (room : Nat) :
    List α → Except (ArrayVec α) (ArrayVec α)
  | [] => Except.ok ⟨cap, data⟩
  | x :: rest =>
    if room = 0 then
      Except.error ⟨cap, data⟩
    else
      extendCheckedGo cap (data ++ [x]) (room - 1) rest

/-- `ArrayVecImpl::extend_from_iter::<_, true>`, as called by the modern
`impl Extend` (`src/arrayvec_copy.rs`): `take = CAPACITY - len` slots of
room, then the checked write loop. -/
def extendChecked (v : ArrayVec α) (xs : List α) : Except (ArrayVec α) (ArrayVec α) :=
  extendCheckedGo v.cap v.data (v.cap - v.data.length) xs

/-- `io::Write for &mut [u8]` (std, external collaborator): writing to the
spare-capacity slice copies `min(data.len(), tail.len())` bytes and reports
that count; it never fails. -/
def sliceWriteLen (tailLen : Nat) (data : List β) : Except Unit Nat :=
  Except.ok (min data.length tailLen)

/-- `impl io::Write for RawArrayVec` (`src/raw.rs`): write through the
spare-capacity tail slice; on `Ok(written)` commit `len + written`. -/
def write (v : ArrayVec β) (data : List β) : Except Unit Nat × ArrayVec β :=
  match sliceWriteLen (v.cap - v.data.length) data with
  | Except.ok written => (Except.ok written, ⟨v.cap, v.data ++ data.take written⟩)
  | Except.error e => (Except.error e, v)

end ArrayVec

/-- The UTF-8 encoding of a scalar character as a byte list (values are
`Nat`s below 256), following the standard UTF-8 layout. -/
def utf8Bytes (c : Char) : List Nat :=
  let n := c.toNat
  if n < 0x80 then
    [n]
  else if n < 0x800 then
    [0xC0 + n / 64, 0x80 + n % 64]
  else if n < 0x10000 then
    [0xE0 + n / 4096, 0x80 + (n / 64) % 64, 0x80 + n % 64]
  else
    [0xF0 + n / 262144, 0x80 + (n / 4096) % 64, 0x80 + (n / 64) % 64, 0x80 + n % 64]

/-- Modelled from the spec: `crate::char::encode_utf8`, the external UTF-8
encoder consumed by `ArrayString::try_push`, is not under `src/`.  Per the
spec (§1): given a character and a destination buffer with the remaining
capacity, write the encoding and report the bytes written, or report that
the buffer was too small. -/
def encode_utf8 (c : Char) (remaining : Nat) : Except Unit (List Nat) :=
  if (utf8Bytes c).length ≤ remaining then Except.ok (utf8Bytes c) else Except.error ()

/-- Model of `ArrayString<CAP>` (`src/array_string.rs`): a capacity and the
list of live bytes (the UTF-8 contents `[0, len)`). -/
structure ArrayString where
  cap : Nat
  data : List Nat
  deriving DecidableEq, Repr

namespace ArrayString

/-- `ArrayString::new`. -/
def new (cap : Nat) : ArrayString := ⟨cap, []⟩

/-- `ArrayString::len`. -/
def len (s : ArrayString) : Nat := s.data.length

/-- `ArrayString::try_push` (`src/array_string.rs`): encode the character
into the unused tail at `len` with `remaining_cap = capacity - len`; on
`Ok(n)` commit `len + n`, else return the error carrying the character with
the string untouched (encode-then-commit-length). -/
def try_push (s : ArrayString) (c : Char) : Except (CapacityError Char) Unit × ArrayString :=
  match encode_utf8 c (s.cap - s.data.length) with
  | Except.ok bs => (Except.ok (), ⟨s.cap, s.data ++ bs⟩)
  | Except.error _ => (Except.error ⟨c⟩, s)

/-- `ArrayString::push`: `self.try_push(c).unwrap()`; `none` is the
panicking outcome. -/
def push (s : ArrayString) (c : Char) : Option ArrayString :=
  match s.try_push c with
  | (Except.ok _, s₂) => some s₂
  | (Except.error _, _) => none

/-- `ArrayString::try_push_str`: reject the whole string if it exceeds the
remaining capacity, else copy the bytes and advance the length at once. -/
def try_push_str (s : ArrayString) (t : List Nat) :
    Except (CapacityError (List Nat)) Unit × ArrayString :=
  if t.length > s.cap - s.data.length then
    (Except.error ⟨t⟩, s)
  else
    (Except.ok (), ⟨s.cap, s.data ++ t⟩)

/-- UTF-8 continuation byte test (`0x80 ≤ b < 0xC0`). -/
def isContByte (b : Nat) : Bool := 128 ≤ b && b < 192

/-- Byte length of the last character of a valid UTF-8 byte list: its
trailing continuation bytes plus the lead byte (what
`self.chars().rev().next()`'s `len_utf8` computes), clamped to the length. -/
def lastCharLen (bs : List Nat) : Nat :=
  min ((bs.reverse.takeWhile isContByte).length + 1) bs.length

/-- `ArrayString::pop`: `None` if empty; otherwise find the last character
by decoding from the end and cut its `len_utf8` bytes off the length.  The
popped character is returned as its byte run. -/
def pop (s : ArrayString) : Option (List Nat) × ArrayString :=
  if s.data.length = 0 then
    (none, s)
  else
    (some (s.data.drop (s.data.length - lastCharLen s.data)),
     ⟨s.cap, s.data.take (s.data.length - lastCharLen s.data)⟩)

/-- `str::is_char_boundary`: offset 0 always; the length or any offset
holding a non-continuation byte. -/
def isCharBoundary (bs : List Nat) (i : Nat) : Bool :=
  if i = 0 then
    true
  else
    match bs[i]? with
    | some b => ! isContByte b
    | none => i == bs.length

/-- `ArrayString::truncate` (`src/array_string.rs`): no-op when
`new_len > len`; otherwise assert the character boundary (`none` is the
panic) and set the length. -/
def truncate (s : ArrayString) (new_len : Nat) : Option ArrayString :=
  if new_len ≤ s.data.length then
    if isCharBoundary s.data new_len then some ⟨s.cap, s.data.take new_len⟩ else none
  else
    some s

/-- Byte length of the character starting at a UTF-8 lead byte. -/
def leadByteLen (b : Nat) : Nat :=
  if b < 0x80 then 1 else if b < 0xE0 then 2 else if b < 0xF0 then 3 else 4

/-- `ArrayString::remove` (`src/array_string.rs`): decode the character at
`idx` (panicking — `none` — when `idx` is out of range, not a character
boundary, or the character would run past the end), then shift the
remainder left over its bytes and shorten the length. -/
def remove (s : ArrayString) (idx : Nat) : Option (List Nat × ArrayString) :=
  match s.data[idx]? with
  | some b =>
    if isContByte b then
      none
    else
      let n := leadByteLen b
      if idx + n ≤ s.data.length then
        some ((s.data.drop idx).take n, ⟨s.cap, s.data.take idx ++ s.data.drop (idx + n)⟩)
      else
        none
  | none => none

/-- `ArrayString::clear`: `set_len(0)`. -/
def clear (s : ArrayString) : ArrayString := ⟨s.cap, []⟩

end ArrayString

/-- One public mutating operation on a fixed-capacity vector, covering both
design lines (the panicking modern entry points and the historical ones).
`drain` carries how many elements are consumed before the iterator is
dropped. -/
inductive Op (α : Type u) where
  | push (x : α)
  | tryPush (x : α)
  | pop
  | insert (i : Nat) (x : α)
  | tryInsert (i : Nat) (x : α)
  | remove (i : Nat)
  | swapRemove (i : Nat)
  | truncate (n : Nat)
  | clear
  | retain (f : α → Bool)
  | drain (start stop k : Nat)
  | extend (xs : List α)
  | extendChecked (xs : List α)
  | write (xs : List α)

namespace ArrayVec

/-- The state transition of one public operation.  A panicking operation
aborts: for `push`/`insert` the vector is untouched at the panic site, and
for the checked extend the scope-exit guard has already committed the
written prefix (the `Except.error` state). -/
def step (v : ArrayVec α) : Op α → ArrayVec α
  | Op.push x =>
    match v.push x with
    | some v₂ => v₂
    | none => v
  | Op.tryPush x => (v.try_push x).2
  | Op.pop => v.pop.2
  | Op.insert i x =>
    match v.insert i x with
    | some p => p.2
    | none => v
  | Op.tryInsert i x =>
    match v.try_insert i x with
    | some p => p.2
    | none => v
  | Op.remove i => (v.remove i).2
  | Op.swapRemove i => (v.swap_remove i).2
  | Op.truncate n => v.truncate n
  | Op.clear => v.clear
  | Op.retain f => v.retain f
  | Op.drain s e k =>
    match v.drain s e with
    | some (d, v₁) => drainDrop (drainConsume d k).2 v₁
    | none => v
  | Op.extend xs => v.extendSilent xs
  | Op.extendChecked xs =>
    match v.extendChecked xs with
    | Except.ok v₂ => v₂
    | Except.error v₂ => v₂
  | Op.write xs => (v.write xs).2

end ArrayVec

/-- One public mutating operation on a fixed-capacity string. -/
inductive StrOp where
  | push (c : Char)
  | tryPush (c : Char)
  | tryPushStr (t : List Nat)
  | pop
  | truncate (n : Nat)
  | remove (i : Nat)
  | clear

namespace ArrayString

/-- The state transition of one public string operation; panicking
operations leave the string at its pre-panic state. -/
def step (s : ArrayString) : StrOp → ArrayString
  | StrOp.push c =>
    match s.push c with
    | some s₂ => s₂
    | none => s
  | StrOp.tryPush c => (s.try_push c).2
  | StrOp.tryPushStr t => (s.try_push_str t).2
  | StrOp.pop => s.pop.2
  | StrOp.truncate n =>
    match s.truncate n with
    | some s₂ => s₂
    | none => s
  | StrOp.remove i =>
    match s.remove i with
    | some p => p.2
    | none => s
  | StrOp.clear => s.clear

end ArrayString

namespace ArrayVec

/-! ### Helper lemmas -/

/-- Swapping two slots preserves the slice length. -/
theorem length_swapList (l : List α) (i j : Nat) : (swapList l i j).length = l.length := by
  unfold swapList
  split <;> simp

theorem length_splice (l : List α) (i : Nat) (x : α) :
    (l.take i ++ x :: l.drop i).length = min i l.length + 1 + (l.length - i) := by
  simp
  omega

theorem foldl_try_push_of_fits (xs : List α) :
    ∀ v : ArrayVec α, v.data.length + xs.length ≤ v.cap →
      xs.foldl (fun acc x => (acc.try_push x).2) v = ⟨v.cap, v.data ++ xs⟩ := by
  induction xs with
  | nil => intro v _; simp
  | cons x rest ih =>
    intro v h
    have hlt : v.data.length < v.cap := by simp at h; omega
    have hstep : (v.try_push x).2 = ⟨v.cap, v.data ++ [x]⟩ := by
      simp [try_push, hlt]
    rw [List.foldl_cons, hstep, ih ⟨v.cap, v.data ++ [x]⟩ (by simp at h ⊢; omega)]
    simp

theorem try_push_cap (v : ArrayVec α) (x : α) : (v.try_push x).2.cap = v.cap := by
  unfold try_push
  split <;> rfl

theorem try_push_len (v : ArrayVec α) (x : α) (h : v.data.length ≤ v.cap) :
    (v.try_push x).2.data.length ≤ v.cap := by
  unfold try_push
  split <;> simp <;> omega

theorem pop_cap (v : ArrayVec α) : v.pop.2.cap = v.cap := by
  unfold pop
  split <;> rfl

theorem pop_len (v : ArrayVec α) : v.pop.2.data.length ≤ v.data.length := by
  unfold pop
  split
  · exact Nat.le_refl _
  · simp [List.length_dropLast]

theorem extendCheckedGo_ok (xs : List α) :
    ∀ (data : List α) (room : Nat), xs.length ≤ room →
      extendCheckedGo c data room xs = Except.ok ⟨c, data ++ xs⟩ := by
  induction xs with
  | nil => intro data room _; simp [extendCheckedGo]
  | cons x rest ih =>
    intro data room h
    simp at h
    have hroom : room ≠ 0 := by omega
    rw [extendCheckedGo, if_neg hroom, ih (data ++ [x]) (room - 1) (by omega)]
    simp

theorem extendCheckedGo_err (xs : List α) :
    ∀ (data : List α) (room : Nat), room < xs.length →
      extendCheckedGo c data room xs = Except.error ⟨c, data ++ xs.take room⟩ := by
  induction xs with
  | nil => intro data room h; simp at h
  | cons x rest ih =>
    intro data room h
    by_cases hroom : room = 0
    · subst hroom
      simp [extendCheckedGo]
    · rw [extendCheckedGo, if_neg hroom, ih (data ++ [x]) (room - 1) (by simp at h; omega)]
      obtain ⟨r, rfl⟩ : ∃ r, room = r + 1 := ⟨room - 1, by omega⟩
      simp [List.take_succ_cons]

theorem extendChecked_state_len (v : ArrayVec α) (xs : List α) (h : v.data.length ≤ v.cap) :
    (match v.extendChecked xs with
     | Except.ok w => w
     | Except.error w => w).data.length ≤ v.cap := by
  unfold extendChecked
  by_cases hfit : xs.length ≤ v.cap - v.data.length
  · rw [extendCheckedGo_ok xs v.data _ hfit]
    simp
    omega
  · rw [extendCheckedGo_err xs v.data _ (by omega)]
    simp
    omega

theorem drainConsume_eq (k : Nat) :
    ∀ d : Drain α, drainConsume d k = (d.remaining.take k, ⟨d.remaining.drop k, d.tail⟩) := by
  induction k with
  | zero => intro d; simp [drainConsume]
  | succ k ih =>
    intro d
    match d with
    | ⟨[], tl⟩ => simp [drainConsume, drainNext]
    | ⟨a :: rest, tl⟩ => simp [drainConsume, drainNext, ih]

theorem retainLoop_length (f : α → Bool) (l : List α) (i del : Nat) :
    (retainLoop f l i del).1.length = l.length := by
  induction l, i, del using retainLoop.induct f with
  | case1 l i del h hf ih => rw [retainLoop, dif_pos h, if_pos hf]; exact ih
  | case2 l i del h hf hdel ih =>
    rw [retainLoop, dif_pos h, if_neg hf, if_pos hdel]
    rw [ih, length_swapList]
  | case3 l i del h hf hdel ih =>
    rw [retainLoop, dif_pos h, if_neg hf, if_neg hdel]
    exact ih
  | case4 l i del h => rw [retainLoop, dif_neg h]

/-! Characterizations of the individual operations, reused by the claim
theorems below. -/

theorem pop_of_ne_nil (v : ArrayVec α) (h : v.data ≠ []) :
    v.pop = (some (v.data.getLast h), ⟨v.cap, v.data.dropLast⟩) := by
  unfold pop
  rw [if_neg (by simpa using h), List.getLast?_eq_getLast _ h]

theorem push_of_nonfull (v : ArrayVec α) (x : α) (h : v.data.length < v.cap) :
    v.push x = some ⟨v.cap, v.data ++ [x]⟩ := by
  unfold push try_push
  rw [if_pos h]

theorem push_of_full (v : ArrayVec α) (x : α) (h : ¬ v.data.length < v.cap) :
    v.push x = none := by
  unfold push try_push
  rw [if_neg h]

theorem insert_of_gt (v : ArrayVec α) (i : Nat) (x : α) (h : v.data.length < i) :
    v.insert i x = none := by
  unfold insert
  rw [if_neg (by omega)]

theorem insert_of_eq_cap (v : ArrayVec α) (i : Nat) (x : α)
    (hle : i ≤ v.data.length) (hc : i = v.cap) :
    v.insert i x = some (Except.error ⟨x⟩, v) := by
  unfold insert
  rw [if_pos hle, if_pos hc]

theorem insert_full (v : ArrayVec α) (i : Nat) (x : α)
    (hle : i ≤ v.data.length) (hc : i ≠ v.cap) (hfull : v.data.length = v.cap)
    (hne : v.data ≠ []) :
    v.insert i x = some (Except.error ⟨v.data.getLast hne⟩,
      ⟨v.cap, v.data.dropLast.take i ++ x :: v.data.dropLast.drop i⟩) := by
  unfold insert
  rw [if_pos hle, if_neg hc, if_pos hfull, pop_of_ne_nil v hne]

theorem insert_nonfull (v : ArrayVec α) (i : Nat) (x : α)
    (hle : i ≤ v.data.length) (hfull : v.data.length < v.cap) :
    v.insert i x = some (Except.ok (), ⟨v.cap, v.data.take i ++ x :: v.data.drop i⟩) := by
  unfold insert
  rw [if_pos hle, if_neg (by omega), if_neg (by omega)]

theorem try_insert_of_gt (v : ArrayVec α) (i : Nat) (x : α) (h : v.data.length < i) :
    v.try_insert i x = none := by
  unfold try_insert
  rw [if_pos (by omega)]

theorem try_insert_full (v : ArrayVec α) (i : Nat) (x : α)
    (hle : i ≤ v.data.length) (hfull : v.data.length = v.cap) :
    v.try_insert i x = some (Except.error ⟨x⟩, v) := by
  unfold try_insert
  rw [if_neg (by omega), if_pos hfull]

theorem try_insert_nonfull (v : ArrayVec α) (i : Nat) (x : α)
    (hle : i ≤ v.data.length) (hfull : v.data.length < v.cap) :
    v.try_insert i x = some (Except.ok (), ⟨v.cap, v.data.take i ++ x :: v.data.drop i⟩) := by
  unfold try_insert
  rw [if_neg (by omega), if_neg (by omega)]

theorem drain_of_le (v : ArrayVec α) (start stop : Nat)
    (h1 : start ≤ stop) (h2 : stop ≤ v.data.length) :
    v.drain start stop =
      some (⟨(v.data.take stop).drop start, v.data.drop stop⟩, ⟨v.cap, v.data.take start⟩) := by
  unfold drain
  rw [if_pos ⟨h1, h2⟩]

theorem remove_oob (v : ArrayVec α) (i : Nat) (h : v.data.length ≤ i) :
    v.remove i = (none, v) := by
  unfold remove
  rw [if_pos (by omega)]

theorem swap_remove_oob (v : ArrayVec α) (i : Nat) (h : v.data.length ≤ i) :
    v.swap_remove i = (none, v) := by
  unfold swap_remove
  rw [if_pos (by omega)]

theorem remove_in (v : ArrayVec α) (i : Nat) (h : i < v.data.length) :
    v.remove i = (some (v.data.get ⟨i, h⟩), ⟨v.cap, v.data.take i ++ v.data.drop (i + 1)⟩) := by
  unfold remove
  rw [if_neg (by omega), drain_of_le v i (i + 1) (by omega) (by omega)]
  have htake : (v.data.take (i + 1)).drop i = [v.data.get ⟨i, h⟩] := by
    rw [List.take_succ]
    rw [List.drop_append_of_le_length (by simp; omega)]
    have : (v.data.take i).drop i = [] := by
      apply List.drop_eq_nil_of_le
      simp
    rw [this, List.nil_append, List.getElem?_eq_getElem h]
    simp
  simp only [drainNext, drainDrop, htake]
  simp

theorem retain_eq (v : ArrayVec α) (f : α → Bool) :
    v.retain f = ⟨v.cap,
      (retainLoop f v.data 0 0).1.take
        ((retainLoop f v.data 0 0).1.length - (retainLoop f v.data 0 0).2)⟩ := by
  unfold retain
  set r := retainLoop f v.data 0 0 with hr
  by_cases hdel : r.2 > 0
  · rw [if_pos hdel, drain_of_le _ _ _ (by omega) (by simp)]
    simp [drainDrop]
  · rw [if_neg hdel]
    have : r.2 = 0 := by omega
    simp [this]

theorem write_eq (v : ArrayVec β) (xs : List β) :
    v.write xs = (Except.ok (min xs.length (v.cap - v.data.length)),
      ⟨v.cap, v.data ++ xs.take (min xs.length (v.cap - v.data.length))⟩) := by
  unfold write sliceWriteLen
  rfl

theorem extendSilent_eq (v : ArrayVec α) (xs : List α) (h : v.data.length ≤ v.cap) :
    v.extendSilent xs = ⟨v.cap, v.data ++ xs.take (v.cap - v.data.length)⟩ := by
  unfold extendSilent
  apply foldl_try_push_of_fits
  simp
  omega

theorem extendChecked_of_fits (v : ArrayVec α) (xs : List α)
    (h : xs.length ≤ v.cap - v.data.length) :
    v.extendChecked xs = Except.ok ⟨v.cap, v.data ++ xs⟩ :=
  extendCheckedGo_ok xs v.data _ h

theorem extendChecked_of_over (v : ArrayVec α) (xs : List α)
    (h : v.cap - v.data.length < xs.length) :
    v.extendChecked xs =
      Except.error ⟨v.cap, v.data ++ xs.take (v.cap - v.data.length)⟩ :=
  extendCheckedGo_err xs v.data _ h

/-! ### The length invariant is preserved by every public operation -/

theorem step_cap (v : ArrayVec α) (op : Op α) (h : v.data.length ≤ v.cap) :
    (v.step op).cap = v.cap := by
  cases op with
  | push x =>
    show (match v.push x with | some v₂ => v₂ | none => v).cap = v.cap
    rcases Nat.lt_or_ge v.data.length v.cap with hlt | hge
    · rw [push_of_nonfull v x hlt]
    · rw [push_of_full v x (by omega)]
  | tryPush x => exact try_push_cap v x
  | pop => exact pop_cap v
  | insert i x =>
    show (match v.insert i x with | some p => p.2 | none => v).cap = v.cap
    rcases Nat.lt_or_ge v.data.length i with hgt | hle
    · rw [insert_of_gt v i x hgt]
    rcases eq_or_ne i v.cap with hc | hc
    · rw [insert_of_eq_cap v i x hle hc]
    rcases Nat.lt_or_ge v.data.length v.cap with hnf | hf
    · rw [insert_nonfull v i x hle hnf]
    · have hfull : v.data.length = v.cap := Nat.le_antisymm h hf
      have hne : v.data ≠ [] := by
        intro hnil
        rw [hnil] at hfull
        simp at hfull
        omega
      rw [insert_full v i x hle hc hfull hne]
  | tryInsert i x =>
    show (match v.try_insert i x with | some p => p.2 | none => v).cap = v.cap
    rcases Nat.lt_or_ge v.data.length i with hgt | hle
    · rw [try_insert_of_gt v i x hgt]
    rcases Nat.lt_or_ge v.data.length v.cap with hnf | hf
    · rw [try_insert_nonfull v i x hle hnf]
    · rw [try_insert_full v i x hle (Nat.le_antisymm h hf)]
  | remove i =>
    show (v.remove i).2.cap = v.cap
    rcases Nat.lt_or_ge i v.data.length with hin | hoob
    · rw [remove_in v i hin]
    · rw [remove_oob v i hoob]
  | swapRemove i =>
    show (v.swap_remove i).2.cap = v.cap
    rcases Nat.lt_or_ge i v.data.length with hin | hoob
    · unfold swap_remove
      rw [if_neg (by omega)]
      exact pop_cap _
    · rw [swap_remove_oob v i hoob]
  | truncate n =>
    show (v.truncate n).cap = v.cap
    unfold truncate
    split <;> rfl
  | clear =>
    show (v.clear).cap = v.cap
    unfold clear truncate
    split <;> rfl
  | retain f =>
    show (v.retain f).cap = v.cap
    rw [retain_eq]
  | drain s e k =>
    show (match v.drain s e with
      | some (d, v₁) => drainDrop (drainConsume d k).2 v₁
      | none => v).cap = v.cap
    by_cases hb : s ≤ e ∧ e ≤ v.data.length
    · rw [drain_of_le v s e hb.1 hb.2]
      simp [drainDrop]
    · unfold drain
      rw [if_neg hb]
  | extend xs =>
    show (v.extendSilent xs).cap = v.cap
    rw [extendSilent_eq v xs h]
  | extendChecked xs =>
    show (match v.extendChecked xs with
      | Except.ok v₂ => v₂ | Except.error v₂ => v₂).cap = v.cap
    rcases le_or_lt xs.length (v.cap - v.data.length) with hfit | hover
    · rw [extendChecked_of_fits v xs hfit]
    · rw [extendChecked_of_over v xs hover]
  | write xs =>
    show (v.write xs).2.cap = v.cap
    rw [write_eq]

theorem step_len (v : ArrayVec α) (op : Op α) (h : v.data.length ≤ v.cap) :
    (v.step op).data.length ≤ v.cap := by
  cases op with
  | push x =>
    show (match v.push x with | some v₂ => v₂ | none => v).data.length ≤ v.cap
    rcases Nat.lt_or_ge v.data.length v.cap with hlt | hge
    · rw [push_of_nonfull v x hlt]
      simp
      omega
    · rw [push_of_full v x (by omega)]
      exact h
  | tryPush x => exact try_push_len v x h
  | pop => exact Nat.le_trans (pop_len v) h
  | insert i x =>
    show (match v.insert i x with | some p => p.2 | none => v).data.length ≤ v.cap
    rcases Nat.lt_or_ge v.data.length i with hgt | hle
    · rw [insert_of_gt v i x hgt]
      exact h
    rcases eq_or_ne i v.cap with hc | hc
    · rw [insert_of_eq_cap v i x hle hc]
      exact h
    rcases Nat.lt_or_ge v.data.length v.cap with hnf | hf
    · rw [insert_nonfull v i x hle hnf]
      simp
      omega
    · have hfull : v.data.length = v.cap := Nat.le_antisymm h hf
      have hne : v.data ≠ [] := by
        intro hnil
        rw [hnil] at hfull
        simp at hfull
        omega
      rw [insert_full v i x hle hc hfull hne]
      simp [List.length_dropLast]
      omega
  | tryInsert i x =>
    show (match v.try_insert i x with | some p => p.2 | none => v).data.length ≤ v.cap
    rcases Nat.lt_or_ge v.data.length i with hgt | hle
    · rw [try_insert_of_gt v i x hgt]
      exact h
    rcases Nat.lt_or_ge v.data.length v.cap with hnf | hf
    · rw [try_insert_nonfull v i x hle hnf]
      simp
      omega
    · rw [try_insert_full v i x hle (Nat.le_antisymm h hf)]
      exact h
  | remove i =>
    show (v.remove i).2.data.length ≤ v.cap
    rcases Nat.lt_or_ge i v.data.length with hin | hoob
    · rw [remove_in v i hin]
      simp
      omega
    · rw [remove_oob v i hoob]
      exact h
  | swapRemove i =>
    show (v.swap_remove i).2.data.length ≤ v.cap
    rcases Nat.lt_or_ge i v.data.length with hin | hoob
    · unfold swap_remove
      rw [if_neg (by omega)]
      refine Nat.le_trans (Nat.le_trans (pop_len _) ?_) h
      simp [length_swapList]
    · rw [swap_remove_oob v i hoob]
      exact h
  | truncate n =>
    show (v.truncate n).data.length ≤ v.cap
    unfold truncate
    split
    · simp
      omega
    · exact h
  | clear =>
    show (v.clear).data.length ≤ v.cap
    unfold clear truncate
    split
    · simp
    · exact h
  | retain f =>
    show (v.retain f).data.length ≤ v.cap
    rw [retain_eq]
    simp
    have := retainLoop_length f v.data 0 0
    omega
  | drain s e k =>
    show (match v.drain s e with
      | some (d, v₁) => drainDrop (drainConsume d k).2 v₁
      | none => v).data.length ≤ v.cap
    by_cases hb : s ≤ e ∧ e ≤ v.data.length
    · rw [drain_of_le v s e hb.1 hb.2]
      simp [drainConsume_eq, drainDrop]
      omega
    · unfold drain
      rw [if_neg hb]
      exact h
  | extend xs =>
    show (v.extendSilent xs).data.length ≤ v.cap
    rw [extendSilent_eq v xs h]
    simp
    omega
  | extendChecked xs =>
    show (match v.extendChecked xs with
      | Except.ok v₂ => v₂ | Except.error v₂ => v₂).data.length ≤ v.cap
    rcases le_or_lt xs.length (v.cap - v.data.length) with hfit | hover
    · rw [extendChecked_of_fits v xs hfit]
      simp
      omega
    · rw [extendChecked_of_over v xs hover]
      simp
      omega
  | write xs =>
    show (v.write xs).2.data.length ≤ v.cap
    rw [write_eq]
    simp
    omega

theorem steps_len (ops : List (Op α)) :
    ∀ v : ArrayVec α, v.data.length ≤ v.cap →
      (ops.foldl ArrayVec.step v).data.length ≤ (ops.foldl ArrayVec.step v).cap := by
  induction ops with
  | nil => intro v h; exact h
  | cons op rest ih =>
    intro v h
    rw [List.foldl_cons]
    exact ih _ (by rw [step_cap v op h]; exact step_len v op h)

theorem steps_cap (ops : List (Op α)) :
    ∀ v : ArrayVec α, v.data.length ≤ v.cap → (ops.foldl ArrayVec.step v).cap = v.cap := by
  induction ops with
  | nil => intro v _; rfl
  | cons op rest ih =>
    intro v h
    rw [List.foldl_cons, ih _ (by rw [step_cap v op h]; exact step_len v op h), step_cap v op h]

/-! ### The pop-loop drop trace -/

theorem popLoop_eq_reverse (n : Nat) :
    ∀ v : ArrayVec α, v.data.length ≤ n → popLoop n v = v.data.reverse := by
  induction n with
  | zero =>
    intro v h
    have : v.data = [] := List.length_eq_zero.mp (by omega)
    rw [this]
    rfl
  | succ n ih =>
    intro v h
    rcases eq_or_ne v.data [] with hnil | hne
    · rw [popLoop, hnil]
      simp [pop, hnil]
    · rw [popLoop, pop_of_ne_nil v hne]
      show v.data.getLast hne :: popLoop n ⟨v.cap, v.data.dropLast⟩ = v.data.reverse
      rw [ih ⟨v.cap, v.data.dropLast⟩ (by simp [List.length_dropLast]; omega)]
      show v.data.getLast hne :: v.data.dropLast.reverse = v.data.reverse
      conv_rhs => rw [← List.dropLast_append_getLast hne]
      rw [List.reverse_append]
      rfl

theorem dropTrace_eq_reverse (v : ArrayVec α) : v.dropTrace = v.data.reverse :=
  popLoop_eq_reverse v.data.length v (Nat.le_refl _)

end ArrayVec

namespace ArrayString

/-! ### Characterizations of the string operations -/

theorem try_push_of_fits (s : ArrayString) (c : Char)
    (hc : (utf8Bytes c).length ≤ s.cap - s.data.length) :
    s.try_push c = (Except.ok (), ⟨s.cap, s.data ++ utf8Bytes c⟩) := by
  unfold try_push encode_utf8
  rw [if_pos hc]

theorem try_push_of_over (s : ArrayString) (c : Char)
    (hc : ¬ (utf8Bytes c).length ≤ s.cap - s.data.length) :
    s.try_push c = (Except.error ⟨c⟩, s) := by
  unfold try_push encode_utf8
  rw [if_neg hc]

theorem push_of_fits (s : ArrayString) (c : Char)
    (hc : (utf8Bytes c).length ≤ s.cap - s.data.length) :
    s.push c = some ⟨s.cap, s.data ++ utf8Bytes c⟩ := by
  unfold push
  rw [try_push_of_fits s c hc]

theorem push_of_over (s : ArrayString) (c : Char)
    (hc : ¬ (utf8Bytes c).length ≤ s.cap - s.data.length) :
    s.push c = none := by
  unfold push
  rw [try_push_of_over s c hc]

theorem remove_some_len (s : ArrayString) (i : Nat) (p : List Nat × ArrayString)
    (hp : s.remove i = some p) :
    p.2.cap = s.cap ∧ p.2.data.length ≤ s.data.length := by
  unfold remove at hp
  split at hp
  · rename_i b hb
    have hi : i < s.data.length := by
      have := List.getElem?_eq_some.mp hb
      exact this.1
    split at hp
    · simp at hp
    · dsimp only at hp
      split at hp
      · cases hp
        refine ⟨rfl, ?_⟩
        simp
        omega
      · simp at hp
  · simp at hp

/-! ### The string length invariant -/

theorem strStep_cap (s : ArrayString) (op : StrOp) (_h : s.data.length ≤ s.cap) :
    (s.step op).cap = s.cap := by
  cases op with
  | push c =>
    show (match s.push c with | some s₂ => s₂ | none => s).cap = s.cap
    rcases le_or_lt (utf8Bytes c).length (s.cap - s.data.length) with hc | hc
    · rw [push_of_fits s c hc]
    · rw [push_of_over s c (by omega)]
  | tryPush c =>
    show (s.try_push c).2.cap = s.cap
    rcases le_or_lt (utf8Bytes c).length (s.cap - s.data.length) with hc | hc
    · rw [try_push_of_fits s c hc]
    · rw [try_push_of_over s c (by omega)]
  | tryPushStr t =>
    show (s.try_push_str t).2.cap = s.cap
    unfold try_push_str
    split <;> rfl
  | pop =>
    show s.pop.2.cap = s.cap
    unfold pop
    split <;> rfl
  | truncate n =>
    show (match s.truncate n with | some s₂ => s₂ | none => s).cap = s.cap
    unfold truncate
    rcases le_or_lt n s.data.length with h1 | h1
    · rw [if_pos h1]
      by_cases h2 : isCharBoundary s.data n
      · rw [if_pos h2]
      · rw [if_neg h2]
    · rw [if_neg (by omega)]
  | remove i =>
    show (match s.remove i with | some p => p.2 | none => s).cap = s.cap
    rcases hr : s.remove i with _ | p
    · rfl
    · exact (remove_some_len s i p hr).1
  | clear => rfl

theorem strStep_len (s : ArrayString) (op : StrOp) (h : s.data.length ≤ s.cap) :
    (s.step op).data.length ≤ s.cap := by
  cases op with
  | push c =>
    show (match s.push c with | some s₂ => s₂ | none => s).data.length ≤ s.cap
    rcases le_or_lt (utf8Bytes c).length (s.cap - s.data.length) with hc | hc
    · rw [push_of_fits s c hc]
      simp
      omega
    · rw [push_of_over s c (by omega)]
      exact h
  | tryPush c =>
    show (s.try_push c).2.data.length ≤ s.cap
    rcases le_or_lt (utf8Bytes c).length (s.cap - s.data.length) with hc | hc
    · rw [try_push_of_fits s c hc]
      simp
      omega
    · rw [try_push_of_over s c (by omega)]
      exact h
  | tryPushStr t =>
    show (s.try_push_str t).2.data.length ≤ s.cap
    unfold try_push_str
    split
    · exact h
    · rename_i hfit
      simp at hfit ⊢
      omega
  | pop =>
    show s.pop.2.data.length ≤ s.cap
    unfold pop
    split
    · exact h
    · simp
      omega
  | truncate n =>
    show (match s.truncate n with | some s₂ => s₂ | none => s).data.length ≤ s.cap
    unfold truncate
    rcases le_or_lt n s.data.length with h1 | h1
    · rw [if_pos h1]
      by_cases h2 : isCharBoundary s.data n
      · rw [if_pos h2]
        simp
        omega
      · rw [if_neg h2]
        exact h
    · rw [if_neg (by omega)]
      exact h
  | remove i =>
    show (match s.remove i with | some p => p.2 | none => s).data.length ≤ s.cap
    rcases hr : s.remove i with _ | p
    · exact h
    · exact Nat.le_trans (remove_some_len s i p hr).2 h
  | clear => exact Nat.zero_le _

theorem strSteps_len (ops : List StrOp) :
    ∀ s : ArrayString, s.data.length ≤ s.cap →
      (ops.foldl ArrayString.step s).data.length ≤ (ops.foldl ArrayString.step s).cap := by
  induction ops with
  | nil => intro s h; exact h
  | cons op rest ih =>
    intro s h
    rw [List.foldl_cons]
    exact ih _ (by rw [strStep_cap s op h]; exact strStep_len s op h)

theorem strSteps_cap (ops : List StrOp) :
    ∀ s : ArrayString, s.data.length ≤ s.cap → (ops.foldl ArrayString.step s).cap = s.cap := by
  induction ops with
  | nil => intro s _; rfl
  | cons op rest ih =>
    intro s h
    rw [List.foldl_cons, ih _ (by rw [strStep_cap s op h]; exact strStep_len s op h), strStep_cap s op h]

end ArrayString

/-! ## Claim theorems -/

/-- C1: for every ArrayVec and ArrayString value built from `new` or `from`
and every sequence of public operations (push, try_push, pop, insert,
remove, swap_remove, truncate, clear, retain, drain, extend, byte-sink
write), the length always satisfies `0 ≤ length ≤ CAP` (the lower bound is
inherent to `Nat`); and after pushing CAP elements the container is full,
and a further `try_push` returns the rejected element and leaves the length
at CAP. -/
theorem c1_length_invariant {α : Type} (c : Nat) (arr : List α) (ops : List (Op α))
    (sops : List StrOp) (x : α) (xs : List α) (hxs : xs.length = c) :
    (ops.foldl ArrayVec.step (ArrayVec.new α c)).data.length ≤ c
  ∧ (ops.foldl ArrayVec.step (ArrayVec.fromArray arr)).data.length ≤ arr.length
  ∧ (sops.foldl ArrayString.step (ArrayString.new c)).data.length ≤ c
  ∧ ((xs.foldl (fun acc y => (acc.try_push y).2) (ArrayVec.new α c)).is_full = true
     ∧ (xs.foldl (fun acc y => (acc.try_push y).2) (ArrayVec.new α c)).try_push x
         = (Except.error ⟨x⟩,
            xs.foldl (fun acc y => (acc.try_push y).2) (ArrayVec.new α c))) := by
  have hnew : (ArrayVec.new α c).data.length ≤ (ArrayVec.new α c).cap := by
    simp [ArrayVec.new]
  have hfrom : (ArrayVec.fromArray arr).data.length ≤ (ArrayVec.fromArray arr).cap := by
    simp [ArrayVec.fromArray]
  have hs : (ArrayString.new c).data.length ≤ (ArrayString.new c).cap := by
    simp [ArrayString.new]
  have hfold : xs.foldl (fun acc y => (acc.try_push y).2) (ArrayVec.new α c)
      = ⟨c, xs⟩ := by
    have := ArrayVec.foldl_try_push_of_fits xs (ArrayVec.new α c) (by simp [ArrayVec.new]; omega)
    simpa [ArrayVec.new] using this
  refine ⟨?_, ?_, ?_, ?_⟩
  · have h1 := ArrayVec.steps_len ops (ArrayVec.new α c) hnew
    rwa [ArrayVec.steps_cap ops (ArrayVec.new α c) hnew] at h1
  · have h1 := ArrayVec.steps_len ops (ArrayVec.fromArray arr) hfrom
    rwa [ArrayVec.steps_cap ops (ArrayVec.fromArray arr) hfrom] at h1
  · have h1 := ArrayString.strSteps_len sops (ArrayString.new c) hs
    rwa [ArrayString.strSteps_cap sops (ArrayString.new c) hs] at h1
  · rw [hfold]
    constructor
    · simp [ArrayVec.is_full, ArrayVec.len, hxs]
    · unfold ArrayVec.try_push
      rw [if_neg (by simp [hxs])]

/-- C1 witness: the invariant and the full-vector scenario at a concrete
capacity, operation sequence and element list. -/
theorem c1_length_invariant_witness :
    ([2, 7].length = 2)
  ∧ (([Op.push 5, Op.pop, Op.insert 0 1, Op.drain 0 1 0].foldl ArrayVec.step
        (ArrayVec.new Nat 2)).data.length ≤ 2
     ∧ ([Op.push 5, Op.pop, Op.insert 0 1, Op.drain 0 1 0].foldl ArrayVec.step
        (ArrayVec.fromArray [9, 9, 9])).data.length ≤ [9, 9, 9].length
     ∧ (([StrOp.tryPush 'a', StrOp.pop].foldl ArrayString.step
        (ArrayString.new 2)).data.length ≤ 2)
     ∧ (([2, 7].foldl (fun acc y => (acc.try_push y).2) (ArrayVec.new Nat 2)).is_full = true
        ∧ ([2, 7].foldl (fun acc y => (acc.try_push y).2) (ArrayVec.new Nat 2)).try_push 3
            = (Except.error ⟨3⟩,
               [2, 7].foldl (fun acc y => (acc.try_push y).2) (ArrayVec.new Nat 2)))) :=
  ⟨by decide,
   c1_length_invariant 2 [9, 9, 9] [Op.push 5, Op.pop, Op.insert 0 1, Op.drain 0 1 0]
     [StrOp.tryPush 'a', StrOp.pop] 3 [2, 7] (by decide)⟩

/-- C2: `ArrayVecImpl::push` panics when the vector is full
(`length == capacity`); `try_push` on a full vector returns a capacity
error carrying the rejected element and leaves the vector unchanged; on a
non-full vector both write the element into slot `length` and increment the
length by one. -/
theorem c2_push_try_push (v : ArrayVec α) (x : α) :
    (v.data.length = v.cap →
        v.push x = none
      ∧ v.try_push x = (Except.error ⟨x⟩, v))
  ∧ (v.data.length < v.cap →
        v.push x = some ⟨v.cap, v.data ++ [x]⟩
      ∧ v.try_push x = (Except.ok (), ⟨v.cap, v.data ++ [x]⟩)
      ∧ (v.data ++ [x]).length = v.data.length + 1
      ∧ (v.data ++ [x])[v.data.length]? = some x) := by
  constructor
  · intro hfull
    refine ⟨ArrayVec.push_of_full v x (by omega), ?_⟩
    unfold ArrayVec.try_push
    rw [if_neg (by omega)]
  · intro hlt
    refine ⟨ArrayVec.push_of_nonfull v x hlt, ?_, by simp, ?_⟩
    · unfold ArrayVec.try_push
      rw [if_pos hlt]
    · rw [List.getElem?_concat_length]

/-- C2 witness: both branches at concrete vectors. -/
theorem c2_push_try_push_witness :
    ((ArrayVec.mk 1 [0] : ArrayVec Nat).data.length = (ArrayVec.mk 1 [0]).cap
      ∧ ((ArrayVec.mk 1 [0] : ArrayVec Nat).push 5 = none
         ∧ (ArrayVec.mk 1 [0] : ArrayVec Nat).try_push 5
             = (Except.error ⟨5⟩, ArrayVec.mk 1 [0])))
  ∧ ((ArrayVec.mk 2 [0] : ArrayVec Nat).data.length < (ArrayVec.mk 2 [0]).cap
      ∧ ((ArrayVec.mk 2 [0] : ArrayVec Nat).push 5 = some (ArrayVec.mk 2 ([0] ++ [5]))
         ∧ (ArrayVec.mk 2 [0] : ArrayVec Nat).try_push 5
             = (Except.ok (), ArrayVec.mk 2 ([0] ++ [5]))
         ∧ (([0] ++ [5] : List Nat)).length = ([0] : List Nat).length + 1
         ∧ (([0] ++ [5] : List Nat))[([0] : List Nat).length]? = some 5)) :=
  ⟨⟨by decide, (c2_push_try_push (ArrayVec.mk 1 [0]) 5).1 (by decide)⟩,
   ⟨by decide, (c2_push_try_push (ArrayVec.mk 2 [0]) 5).2 (by decide)⟩⟩

/-- C3 counterexample: `RawArrayVec::insert` (the fallible insert the claim
cites) on the full vector `[10, 20]` at index 0 with input 99 returns the
evicted last element 20 — not the input — as the capacity error, and
mutates the vector to `[99, 10]`; the claim asserts it returns the input 99
and does not mutate. -/
theorem c3_insert_counterexample :
    ArrayVec.insert (ArrayVec.mk 2 [10, 20]) 0 (99 : Nat)
      = some (Except.error ⟨20⟩, ArrayVec.mk 2 [99, 10]) := rfl

/-- C3 amended: the strict-rejection behaviour the claim describes is that
of the most recent design line, `ArrayVecCopy::try_insert`
(`src/arrayvec_copy.rs`): for every full vector and every index ≤ length,
it returns the would-be-inserted input element itself as the capacity error
and does not mutate the vector at all; the historical
`RawArrayVec::insert`/`ArrayVec::insert` instead evict the last element. -/
theorem c3_try_insert_strict_rejection (v : ArrayVec α) (i : Nat) (x : α)
    (hfull : v.data.length = v.cap) (hi : i ≤ v.data.length) :
    v.try_insert i x = some (Except.error ⟨x⟩, v) :=
  ArrayVec.try_insert_full v i x hi hfull

/-- C3 witness: strict rejection on the full vector `[1, 2]` at an interior
index. -/
theorem c3_try_insert_strict_rejection_witness :
    ((ArrayVec.mk 2 [1, 2] : ArrayVec Nat).data.length = (ArrayVec.mk 2 [1, 2]).cap)
  ∧ ((1 : Nat) ≤ (ArrayVec.mk 2 [1, 2] : ArrayVec Nat).data.length)
  ∧ ArrayVec.try_insert (ArrayVec.mk 2 [1, 2]) 1 (9 : Nat)
      = some (Except.error ⟨9⟩, ArrayVec.mk 2 [1, 2]) :=
  ⟨by decide, by decide,
   c3_try_insert_strict_rejection (ArrayVec.mk 2 [1, 2]) 1 9 (by decide) (by decide)⟩

/-- C4 counterexample: the historical `impl Extend` (`src/raw.rs`,
`src/lib.rs`), cited by the claim, does not panic when the iterator holds
more than the remaining capacity: extending an empty 2-capacity vector with
`[1, 2, 3]` silently stops after two elements. -/
theorem c4_extend_counterexample :
    ArrayVec.extendSilent (ArrayVec.mk 2 ([] : List Nat)) [1, 2, 3] = ArrayVec.mk 2 [1, 2] :=
  rfl

/-- C4 amended: the modern checked extend (`ArrayVecImpl::extend_from_iter`
with `CHECK = true`, used by the modern `impl Extend`) panics as soon as
the iterator yields one element more than the remaining capacity and
appends everything in order when the input fits; the historical `Extend`
impls (`src/raw.rs`, `src/lib.rs`) instead silently stop taking elements at
capacity, appending exactly the fitting prefix. -/
theorem c4_extend_amended (v : ArrayVec α) (xs : List α) (hv : v.data.length ≤ v.cap) :
    (v.cap - v.data.length < xs.length →
        v.extendChecked xs
          = Except.error ⟨v.cap, v.data ++ xs.take (v.cap - v.data.length)⟩)
  ∧ (xs.length ≤ v.cap - v.data.length →
        v.extendChecked xs = Except.ok ⟨v.cap, v.data ++ xs⟩)
  ∧ v.extendSilent xs = ⟨v.cap, v.data ++ xs.take (v.cap - v.data.length)⟩ :=
  ⟨fun h => ArrayVec.extendChecked_of_over v xs h,
   fun h => ArrayVec.extendChecked_of_fits v xs h,
   ArrayVec.extendSilent_eq v xs hv⟩

/-- C4 witness: overflow panics with the fitting prefix committed, an
exact-fit extend succeeds, and the silent extend truncates. -/
theorem c4_extend_amended_witness :
    ((ArrayVec.mk 2 ([] : List Nat)).data.length ≤ 2
      ∧ (2 : Nat) - ([] : List Nat).length < ([5, 6, 7] : List Nat).length
      ∧ ArrayVec.extendChecked (ArrayVec.mk 2 ([] : List Nat)) [5, 6, 7]
          = Except.error (ArrayVec.mk 2 [5, 6]))
  ∧ ((ArrayVec.mk 4 ([9] : List Nat)).data.length ≤ 4
      ∧ ([5, 6] : List Nat).length ≤ (4 : Nat) - ([9] : List Nat).length
      ∧ ArrayVec.extendChecked (ArrayVec.mk 4 ([9] : List Nat)) [5, 6]
          = Except.ok (ArrayVec.mk 4 [9, 5, 6])
      ∧ ArrayVec.extendSilent (ArrayVec.mk 4 ([9] : List Nat)) [5, 6]
          = ArrayVec.mk 4 [9, 5, 6]) :=
  ⟨⟨by decide, by decide,
    (c4_extend_amended (ArrayVec.mk 2 ([] : List Nat)) [5, 6, 7] (by decide)).1 (by decide)⟩,
   ⟨by decide, by decide,
    (c4_extend_amended (ArrayVec.mk 4 ([9] : List Nat)) [5, 6] (by decide)).2.1 (by decide),
    (c4_extend_amended (ArrayVec.mk 4 ([9] : List Nat)) [5, 6] (by decide)).2.2⟩⟩

/-- C5: for every vector and range `start ≤ stop ≤ len`, `drain` yields
exactly the elements at `[start, stop)` in index order, and whatever number
of elements the iterator is made to consume before it is dropped, the final
vector holds the original `[0, start)` followed by the original
`[stop, len)`, with length `len - (stop - start)`. -/
theorem c5_drain_correct (v : ArrayVec α) (start stop : Nat)
    (h1 : start ≤ stop) (h2 : stop ≤ v.data.length) :
    ∃ d v₁, v.drain start stop = some (d, v₁)
      ∧ d.remaining = (v.data.take stop).drop start
      ∧ (ArrayVec.drainConsume d (stop - start)).1 = (v.data.take stop).drop start
      ∧ (∀ k, ArrayVec.drainDrop (ArrayVec.drainConsume d k).2 v₁
            = ⟨v.cap, v.data.take start ++ v.data.drop stop⟩)
      ∧ (v.data.take start ++ v.data.drop stop).length = v.data.length - (stop - start) := by
  refine ⟨_, _, ArrayVec.drain_of_le v start stop h1 h2, rfl, ?_, ?_, ?_⟩
  · rw [ArrayVec.drainConsume_eq]
    apply List.take_of_length_le
    simp
    omega
  · intro k
    rw [ArrayVec.drainConsume_eq]
    rfl
  · simp
    omega

/-- C5 witness: the spec's example `[0..8]`, `drain(1..4)`, dropped after
consuming nothing. -/
theorem c5_drain_correct_witness :
    ((1 : Nat) ≤ 3 + 1
      ∧ (3 + 1 : Nat) ≤ (ArrayVec.mk 8 [0, 1, 2, 3, 4, 5, 6, 7] : ArrayVec Nat).data.length)
  ∧ (∃ d v₁,
      (ArrayVec.mk 8 [0, 1, 2, 3, 4, 5, 6, 7] : ArrayVec Nat).drain 1 (3 + 1) = some (d, v₁)
      ∧ d.remaining = [1, 2, 3]
      ∧ (ArrayVec.drainConsume d 3).1 = [1, 2, 3]
      ∧ (∀ k, ArrayVec.drainDrop (ArrayVec.drainConsume d k).2 v₁
            = ArrayVec.mk 8 [0, 4, 5, 6, 7])
      ∧ ([0, 4, 5, 6, 7] : List Nat).length = 8 - 3) :=
  ⟨⟨by decide, by decide⟩,
   c5_drain_correct (ArrayVec.mk 8 [0, 1, 2, 3, 4, 5, 6, 7]) 1 (3 + 1)
     (by decide) (by decide)⟩

/-- C6 counterexample: `Drop for ArrayVec` (`src/lib.rs`) pops from the
end, so dropping the vector built from `[1, 2]` drops `2` before `1` — the
live prefix is not dropped in index order as the claim states. -/
theorem c6_drop_order_counterexample :
    ArrayVec.dropTrace (ArrayVec.fromArray [1, 2]) ≠ [1, 2] := by decide

/-- C6 amended: dropping a vector drops exactly its live prefix, each live
element exactly once and nothing at or beyond `length`, but in reverse
index order (the `Drop` impl pops from the end); the truncate-based tail
dropping (`ArrayVecImpl::truncate`) drops its tail in index order; and an
element removed by `pop` is not dropped again when the vector is dropped. -/
theorem c6_drop_amended (v : ArrayVec α) (n : Nat) :
    v.dropTrace = v.data.reverse
  ∧ v.dropTrace.Perm v.data
  ∧ v.truncateDropTrace n = v.data.drop n
  ∧ (v.pop).2.dropTrace = v.data.dropLast.reverse := by
  have h1 := ArrayVec.dropTrace_eq_reverse v
  refine ⟨h1, by rw [h1]; exact List.reverse_perm v.data, rfl, ?_⟩
  rcases eq_or_ne v.data [] with hnil | hne
  · unfold ArrayVec.pop
    rw [if_pos (by simp [hnil])]
    rw [h1, hnil]
    rfl
  · rw [ArrayVec.pop_of_ne_nil v hne]
    exact ArrayVec.dropTrace_eq_reverse ⟨v.cap, v.data.dropLast⟩

/-- C7: pushing a character onto an ArrayString whose remaining capacity is
smaller than the character's UTF-8 byte length fails — `try_push` returns a
capacity error carrying the character, `push` panics — leaving the string's
bytes and length exactly as before (no trace of a partial encoding is
committed); if the character fits, both append exactly its UTF-8 encoding
and the length grows by its byte count. -/
theorem c7_string_push (s : ArrayString) (c : Char) :
    (s.cap - s.data.length < (utf8Bytes c).length →
        s.try_push c = (Except.error ⟨c⟩, s)
      ∧ s.push c = none)
  ∧ ((utf8Bytes c).length ≤ s.cap - s.data.length →
        s.try_push c = (Except.ok (), ⟨s.cap, s.data ++ utf8Bytes c⟩)
      ∧ s.push c = some ⟨s.cap, s.data ++ utf8Bytes c⟩
      ∧ (s.data ++ utf8Bytes c).length = s.data.length + (utf8Bytes c).length) := by
  constructor
  · intro h
    exact ⟨ArrayString.try_push_of_over s c (by omega),
           ArrayString.push_of_over s c (by omega)⟩
  · intro h
    exact ⟨ArrayString.try_push_of_fits s c h, ArrayString.push_of_fits s c h, by simp⟩

/-- C7 witness: the spec's example — the three-byte `'€'` into a string
with two bytes of room fails and changes nothing; a one-byte character
fits. -/
theorem c7_string_push_witness :
    ((ArrayString.mk 2 [] : ArrayString).cap - ([] : List Nat).length
        < (utf8Bytes '€').length
      ∧ ((ArrayString.mk 2 []).try_push '€' = (Except.error ⟨'€'⟩, ArrayString.mk 2 [])
         ∧ (ArrayString.mk 2 []).push '€' = none))
  ∧ ((utf8Bytes 'a').length ≤ (ArrayString.mk 2 [] : ArrayString).cap - ([] : List Nat).length
      ∧ ((ArrayString.mk 2 []).try_push 'a'
           = (Except.ok (), ArrayString.mk 2 ([] ++ utf8Bytes 'a'))
         ∧ (ArrayString.mk 2 []).push 'a' = some (ArrayString.mk 2 ([] ++ utf8Bytes 'a'))
         ∧ (([] : List Nat) ++ utf8Bytes 'a').length
             = ([] : List Nat).length + (utf8Bytes 'a').length)) :=
  ⟨⟨by decide, (c7_string_push (ArrayString.mk 2 []) '€').1 (by decide)⟩,
   ⟨by decide, (c7_string_push (ArrayString.mk 2 []) 'a').2 (by decide)⟩⟩

/-- C8: for every non-full vector and index `i ≤ len`, `insert(i, x)`
succeeds and splices `x` in at position `i`, and `remove(i)` on the result
returns `x` and restores the original vector — insert followed by remove at
the same index is the identity. -/
theorem c8_insert_remove_inverse (v : ArrayVec α) (i : Nat) (x : α)
    (hnf : v.data.length < v.cap) (hi : i ≤ v.data.length) :
    ∃ v₁, v.insert i x = some (Except.ok (), v₁)
      ∧ v₁.data = v.data.take i ++ x :: v.data.drop i
      ∧ v₁.remove i = (some x, v) := by
  refine ⟨⟨v.cap, v.data.take i ++ x :: v.data.drop i⟩,
    ArrayVec.insert_nonfull v i x hi hnf, rfl, ?_⟩
  have hlen : (v.data.take i).length = i := by simp; omega
  have hi' : i < (v.data.take i ++ x :: v.data.drop i).length := by simp; omega
  rw [ArrayVec.remove_in _ i hi']
  have hq : (v.data.take i ++ x :: v.data.drop i)[i]? = some x := by
    rw [List.getElem?_append_right (by omega)]
    simp [hlen]
  have hget : (v.data.take i ++ x :: v.data.drop i).get ⟨i, hi'⟩ = x := by
    apply Option.some.inj
    calc some ((v.data.take i ++ x :: v.data.drop i).get ⟨i, hi'⟩)
        = (v.data.take i ++ x :: v.data.drop i)[i]? :=
          (List.getElem?_eq_getElem hi').symm
      _ = some x := hq
  have htake : (v.data.take i ++ x :: v.data.drop i).take i = v.data.take i := by
    rw [List.take_append_of_le_length (by omega), List.take_take]
    simp
  have hdrop : (v.data.take i ++ x :: v.data.drop i).drop (i + 1) = v.data.drop i := by
    have hsplit : v.data.take i ++ x :: v.data.drop i
        = (v.data.take i ++ [x]) ++ v.data.drop i := by simp
    rw [hsplit, List.drop_left' (by simp [hlen])]
  rw [hget, htake, hdrop, List.take_append_drop]

/-- C8 witness: the spec's `[a,b,c]` example — `insert(1, x)` then
`remove(1)` round-trips on `[1, 2, 3]`. -/
theorem c8_insert_remove_inverse_witness :
    ((ArrayVec.mk 4 [1, 2, 3] : ArrayVec Nat).data.length < (ArrayVec.mk 4 [1, 2, 3]).cap
      ∧ (1 : Nat) ≤ (ArrayVec.mk 4 [1, 2, 3] : ArrayVec Nat).data.length)
  ∧ (∃ v₁, (ArrayVec.mk 4 [1, 2, 3] : ArrayVec Nat).insert 1 9 = some (Except.ok (), v₁)
      ∧ v₁.data = [1, 9, 2, 3]
      ∧ v₁.remove 1 = (some 9, ArrayVec.mk 4 [1, 2, 3])) :=
  ⟨⟨by decide, by decide⟩,
   c8_insert_remove_inverse (ArrayVec.mk 4 [1, 2, 3]) 1 9 (by decide) (by decide)⟩

/-- C9: the byte-sink write on a byte vector appends exactly
`min(n, remaining_capacity)` bytes at the end, grows the length by that
count, returns `Ok` with that count, and never returns an error — bytes
that do not fit are silently discarded and the stored prefix is unchanged. -/
theorem c9_write_sink (v : ArrayVec β) (bs : List β) :
    v.write bs = (Except.ok (min bs.length (v.cap - v.data.length)),
        ⟨v.cap, v.data ++ bs.take (min bs.length (v.cap - v.data.length))⟩)
  ∧ (v.data ++ bs.take (min bs.length (v.cap - v.data.length))).length
      = v.data.length + min bs.length (v.cap - v.data.length) := by
  refine ⟨ArrayVec.write_eq v bs, ?_⟩
  simp

/-- C10: `remove` and `swap_remove` at any index at or beyond the length —
including any index on an empty vector — return `None` and leave the
vector completely unchanged. -/
theorem c10_oob_remove (v : ArrayVec α) (i : Nat) (h : v.data.length ≤ i) :
    v.remove i = (none, v) ∧ v.swap_remove i = (none, v) :=
  ⟨ArrayVec.remove_oob v i h, ArrayVec.swap_remove_oob v i h⟩

/-- C10 witness: an empty vector at index 0 and a non-empty vector at a
stale index. -/
theorem c10_oob_remove_witness :
    ((ArrayVec.mk 3 ([] : List Nat)).data.length ≤ 0
      ∧ ((ArrayVec.mk 3 ([] : List Nat)).remove 0 = (none, ArrayVec.mk 3 [])
         ∧ (ArrayVec.mk 3 ([] : List Nat)).swap_remove 0 = (none, ArrayVec.mk 3 [])))
  ∧ ((ArrayVec.mk 3 ([7] : List Nat)).data.length ≤ 5
      ∧ ((ArrayVec.mk 3 ([7] : List Nat)).remove 5 = (none, ArrayVec.mk 3 [7])
         ∧ (ArrayVec.mk 3 ([7] : List Nat)).swap_remove 5 = (none, ArrayVec.mk 3 [7]))) :=
  ⟨⟨by decide, c10_oob_remove (ArrayVec.mk 3 []) 0 (by decide)⟩,
   ⟨by decide, c10_oob_remove (ArrayVec.mk 3 [7]) 5 (by decide)⟩⟩
